import Mathlib

/-
Verification development for the csminer mining coordinator.

Shallow embedding conventions:
- Wall-clock instants (Go time.Time) are rationals counting seconds; the zero
  value of time.Time is modelled as the rational 0, so IsZero becomes an
  equality test with 0.
- The Go float64 arithmetic of hashrates is modelled over the rationals.
- int64 counters are modelled as integers; none of the verified claims
  involve overflow behaviour.
- Package-level mutable variables become fields of explicit state structures,
  and each Go function becomes a pure function threading that state.
- Reads of the ambient environment (time.Now, pool liveness, the RandomX
  engine return codes) become explicit parameters.
-/

namespace Csminer

/-! Stats ledger state, from the stats package (src/unnamed/part_000).
    One field per package-level variable that the verified operations read
    or write (the httpClient handle is omitted: it is I/O only). -/

structure StatsState where
  startTime : ℚ
  recentStatsResetTime : ℚ
  accurateTime : ℚ
  recentHashesAccurate : ℤ
  totalHashesAccurate : ℤ
  sharesAccepted : ℤ
  sharesRejected : ℤ
  poolSideHashes : ℤ
  clientSideHashes : ℤ
  recentHashes : ℤ
  lastPoolUsername : String
  lastPoolUpdateTime : ℚ
  ppropProgress : ℚ
  hashrate1 : ℤ
  hashrate24 : ℤ
  lifetimeHashes : ℤ
  paid : ℚ
  owed : ℚ
  accumulated : ℚ
  timeToReward : String
  deriving DecidableEq

/-- Embeds stats.RecentStatsNowAccurate: snapshot the recent and lifetime
    counters into the accurate fields and stamp accurateTime with the
    current time (passed here as the parameter t). -/
def RecentStatsNowAccurate (t : ℚ) (st : StatsState) : StatsState :=
  { st with
    recentHashesAccurate := st.recentHashes
    totalHashesAccurate := st.clientSideHashes
    accurateTime := t }

/-- Embeds stats.TallyHashes: add the hash count to the lifetime and recent
    counters. -/
def TallyHashes (n : ℤ) (st : StatsState) : StatsState :=
  { st with
    clientSideHashes := st.clientSideHashes + n
    recentHashes := st.recentHashes + n }

/-- Embeds stats.ShareAccepted. -/
def ShareAccepted (diffTarget : ℤ) (st : StatsState) : StatsState :=
  { st with
    sharesAccepted := st.sharesAccepted + 1
    poolSideHashes := st.poolSideHashes + diffTarget }

/-- Embeds stats.ShareRejected. -/
def ShareRejected (st : StatsState) : StatsState :=
  { st with sharesRejected := st.sharesRejected + 1 }

/-- Embeds stats.ResetRecent: zero the recent counter and stamp both
    accurateTime and recentStatsResetTime with the current time t. -/
def ResetRecent (t : ℚ) (st : StatsState) : StatsState :=
  { st with
    recentHashes := 0
    accurateTime := t
    recentStatsResetTime := t }

/-- Snapshot structure returned by stats.GetSnapshot. Field names follow the
    Go struct. -/
structure Snapshot where
  SharesAccepted : ℤ
  SharesRejected : ℤ
  ClientSideHashes : ℤ
  PoolSideHashes : ℤ
  Hashrate : ℚ
  RecentHashrate : ℚ
  PoolUsername : String
  LifetimeHashes : ℤ
  Paid : ℚ
  Owed : ℚ
  Accumulated : ℚ
  TimeToReward : String
  SecondsOld : ℤ
  deriving DecidableEq

/-- Go conversion int(x) for a float64 x truncates toward zero; on a rational
    in lowest terms that is integer division of numerator by denominator. -/
def truncToInt (q : ℚ) : ℤ :=
  Int.tdiv q.num q.den

/-- Embeds stats.GetSnapshot from src/unnamed/part_000. The parameter now
    stands for time.Now(). Returns the snapshot together with
    secondsSinceReset and secondsRecentWindow, as in the source. Fields of
    the Go struct left at their zero value are 0, the empty string, or 0.0
    here. The local variable elapsedRecent is only assigned in the isMining
    branch and otherwise keeps its zero value, exactly as in the source. -/
def GetSnapshot (isMining : Bool) (now : ℚ) (st : StatsState) :
    Snapshot × ℚ × ℚ :=
  let elapsedOverall : ℚ :=
    if isMining then st.accurateTime - st.startTime else now - st.startTime
  let hashrate : ℚ :=
    if elapsedOverall > 0 then (st.totalHashesAccurate : ℚ) / elapsedOverall
    else 0
  let elapsedRecent : ℚ :=
    if isMining then st.accurateTime - st.recentStatsResetTime else 0
  let recentHashrate : ℚ :=
    if isMining then
      if elapsedRecent > 5 then (st.recentHashesAccurate : ℚ) / elapsedRecent
      else -1
    else 0
  let s : Snapshot :=
    { SharesAccepted := st.sharesAccepted
      SharesRejected := st.sharesRejected
      ClientSideHashes := st.clientSideHashes
      PoolSideHashes := st.poolSideHashes
      Hashrate := hashrate
      RecentHashrate := recentHashrate
      PoolUsername := if st.lastPoolUsername ≠ "" then st.lastPoolUsername else ""
      LifetimeHashes := if st.lastPoolUsername ≠ "" then st.lifetimeHashes else 0
      Paid := if st.lastPoolUsername ≠ "" then st.paid else 0
      Owed := if st.lastPoolUsername ≠ "" then st.owed else 0
      Accumulated := if st.lastPoolUsername ≠ "" then st.accumulated else 0
      TimeToReward := if st.lastPoolUsername ≠ "" then st.timeToReward else ""
      SecondsOld :=
        if st.lastPoolUpdateTime = 0 then -1
        else truncToInt (now - st.lastPoolUpdateTime) }
  (s, now - st.recentStatsResetTime, elapsedRecent)

/-! Operation sequences over the stats ledger, for the tally/reset claims. -/

/-- A ledger operation: a worker tally of n hashes, or a recent-stats reset
    performed at wall-clock time t. -/
inductive StatsOp where
  | tally (n : ℤ)
  | reset (t : ℚ)
  deriving DecidableEq

/-- Apply one ledger operation. -/
def applyStatsOp (st : StatsState) (op : StatsOp) : StatsState :=
  match op with
  | StatsOp.tally n => TallyHashes n st
  | StatsOp.reset t => ResetRecent t st

/-- Run a sequence of ledger operations from left to right. -/
def runStats (st : StatsState) (ops : List StatsOp) : StatsState :=
  ops.foldl applyStatsOp st

/-- Sum of the amounts tallied by a sequence of operations. -/
def talliesSum : List StatsOp → ℤ
  | [] => 0
  | StatsOp.tally n :: rest => n + talliesSum rest
  | StatsOp.reset _ :: rest => talliesSum rest

end Csminer

namespace Csminer

/-! Activity evaluator and configuration state, from src/minerlib/minerlib.go. -/

def MINING_PAUSED_NO_CONNECTION : ℤ := -2
def MINING_PAUSED_SCREEN_ACTIVITY : ℤ := -3
def MINING_PAUSED_BATTERY_POWER : ℤ := -4
def MINING_PAUSED_USER_OVERRIDE : ℤ := -5
def MINING_PAUSED_TIME_EXCLUDED : ℤ := -6
def MINING_PAUSED_NO_LOGIN : ℤ := -7
def MINING_ACTIVE : ℤ := 1
def MINING_ACTIVE_USER_OVERRIDE : ℤ := 2
def OVERRIDE_MINE : ℤ := 1
def OVERRIDE_PAUSE : ℤ := 2

/-- Pool login arguments. Only the username field participates in the
    verified operations; the rig id, wallet, agent, config string and TLS
    flag of the Go struct are connection parameters not read by them. -/
structure PoolLoginArgs where
  Username : String
  deriving DecidableEq

/-- Configuration state of package minerlib: the package-level variables
    read by the activity evaluator and the public accessors. plArgs is none
    exactly when nobody is logged in. -/
structure MinerConfig where
  plArgs : Option PoolLoginArgs
  threads : ℤ
  excludeHourStart : ℤ
  excludeHourEnd : ℤ
  batteryPower : Bool
  screenIdle : Bool
  miningOverride : ℤ
  deriving DecidableEq

/-- Embeds minerlib.timeExcluded. currHr stands for time.Now().Hour(). -/
def timeExcluded (startHr endHr currHr : ℤ) : Bool :=
  if startHr < endHr then currHr ≥ startHr && currHr < endHr
  else currHr < startHr && currHr ≥ endHr

/-- Embeds minerlib.getMiningActivityState. clAlive stands for the result of
    cl.IsAlive() and currHr for time.Now().Hour(). -/
def getMiningActivityState (cfg : MinerConfig) (clAlive : Bool) (currHr : ℤ) : ℤ :=
  match cfg.plArgs with
  | none => MINING_PAUSED_NO_LOGIN
  | some _ =>
    if cfg.miningOverride = OVERRIDE_PAUSE then MINING_PAUSED_USER_OVERRIDE
    else if !clAlive then MINING_PAUSED_NO_CONNECTION
    else if cfg.miningOverride = OVERRIDE_MINE then MINING_ACTIVE_USER_OVERRIDE
    else if timeExcluded cfg.excludeHourStart cfg.excludeHourEnd currHr then
      MINING_PAUSED_TIME_EXCLUDED
    else if cfg.batteryPower then MINING_PAUSED_BATTERY_POWER
    else if !cfg.screenIdle then MINING_PAUSED_SCREEN_ACTIVITY
    else MINING_ACTIVE

/-- Response structure of minerlib.GetMiningState. -/
structure GetMiningStateResponse where
  snapshot : Snapshot
  MiningActivity : ℤ
  Threads : ℤ
  deriving DecidableEq

/-- Embeds minerlib.GetMiningState. The function reads the activity state,
    takes a stats snapshot, and patches the pool-side fields of the local
    snapshot copy when nobody is logged in or when the logged-in username
    differs from the username attached to the pool stats. It performs no
    writes to any package-level variable, which the embedding expresses by
    returning the configuration and ledger states alongside the response. -/
def GetMiningState (cfg : MinerConfig) (st : StatsState) (clAlive : Bool)
    (currHr : ℤ) (now : ℚ) : GetMiningStateResponse × MinerConfig × StatsState :=
  let as := getMiningActivityState cfg clAlive currHr
  let isMining : Bool := decide (as > 0)
  let s := (GetSnapshot isMining now st).1
  let s2 : Snapshot :=
    match cfg.plArgs with
    | none => { s with PoolUsername := "", SecondsOld := -1 }
    | some a =>
      if a.Username ≠ s.PoolUsername then
        { s with PoolUsername := a.Username, SecondsOld := -1 }
      else s
  ({ snapshot := s2, MiningActivity := as, Threads := cfg.threads }, cfg, st)

/-! Miner initialization, from minerlib.InitMiner. The call to rx.InitRX is
    external native code; its return code enters as the parameter rxInitCode
    (1 = ok, 2 = ok but no hugepages, negative = fatal). The embedding also
    reports whether the engine initialization was invoked and whether the
    stats ledger was initialized, so that the absence of side effects on the
    config-error path is expressible. -/

structure InitMinerArgs where
  Threads : ℤ
  ExcludeHourStart : ℤ
  ExcludeHourEnd : ℤ
  deriving DecidableEq

structure InitMinerResponse where
  Code : ℤ
  Message : String
  deriving DecidableEq

/-- Embeds InitMiner from src/minerlib/minerlib.go. The first boolean of the
    result records whether rx.InitRX was invoked, the second whether
    stats.Init was reached. -/
def InitMiner (args : InitMinerArgs) (rxInitCode : ℤ) :
    InitMinerResponse × Bool × Bool :=
  if args.ExcludeHourStart > 24 ∨ args.ExcludeHourStart < 0 ∨
     args.ExcludeHourEnd > 24 ∨ args.ExcludeHourEnd < 0 then
    ({ Code := 3
       Message := "exclude_hour_start and exclude_hour_end must each be between 0 and 24" },
     false, false)
  else if rxInitCode < 0 then
    ({ Code := -3, Message := "Failed to initialize RandomX" }, true, false)
  else if rxInitCode = 2 then
    ({ Code := 2, Message := "" }, true, true)
  else
    ({ Code := 1, Message := "" }, true, true)

/-- Embeds the InitMiner variant at src/unnamed/part_002 lines 227-252. Its
    hour-range test reads hr1 > 24 || hr1 < 0 || hr2 > 24 || hr1 < 0,
    checking hr1 < 0 twice and hr2 < 0 never. -/
def InitMiner_part002 (args : InitMinerArgs) (rxInitCode : ℤ) :
    InitMinerResponse × Bool × Bool :=
  if args.ExcludeHourStart > 24 ∨ args.ExcludeHourStart < 0 ∨
     args.ExcludeHourEnd > 24 ∨ args.ExcludeHourStart < 0 then
    ({ Code := 3
       Message := "exclude_hour_start and exclude_hour_end must each be between 0 and 24" },
     false, false)
  else if rxInitCode < 0 then
    ({ Code := -3, Message := "Failed to initialize RandomX" }, true, false)
  else if rxInitCode = 2 then
    ({ Code := 2, Message := "" }, true, true)
  else
    ({ Code := 1, Message := "" }, true, true)

end Csminer

namespace Csminer

/-! Worker pool model, from src/minerlib/minerlib.go. The stopper word and
    the wait group become explicit fields: stopper is the shared atomic
    flag, and running counts the live worker goroutines registered with the
    wait group. wg.Wait() returns exactly when all workers have finished,
    which the stop step records by zeroing the running count before the
    ledger is marked accurate. -/

structure WorkerState where
  stopper : ℕ
  running : ℕ
  stats : StatsState
  deriving DecidableEq

/-- First step of stopWorkers: atomic.StoreUint32 of 1 into the stopper. -/
def setStopFlag (s : WorkerState) : WorkerState :=
  { s with stopper := 1 }

/-- Second step of stopWorkers: wg.Wait() joins every worker. -/
def joinWorkers (s : WorkerState) : WorkerState :=
  { s with running := 0 }

/-- Third step of stopWorkers: stats.RecentStatsNowAccurate at time t. -/
def markAccurate (t : ℚ) (s : WorkerState) : WorkerState :=
  { s with stats := RecentStatsNowAccurate t s.stats }

/-- Embeds minerlib.stopWorkers: set the stop flag, join all workers, then
    mark the recent stats accurate at the current time t. -/
def stopWorkers (t : ℚ) (s : WorkerState) : WorkerState :=
  let s1 := { s with stopper := 1 }
  let s2 := { s1 with running := 0 }
  { s2 with stats := RecentStatsNowAccurate t s2.stats }

/-- One worker start/stop cycle step of the dispatch loop: starting n
    workers clears the stopper and registers n tasks (the loop body does
    atomic.StoreUint32 of 0 then spawns goMine goroutines); stopping at
    time t is stopWorkers. -/
inductive LoopOp where
  | start (n : ℕ)
  | stop (t : ℚ)
  deriving DecidableEq

/-- Apply one start/stop step. -/
def applyLoopOp (s : WorkerState) (op : LoopOp) : WorkerState :=
  match op with
  | LoopOp.start n => { s with stopper := 0, running := n }
  | LoopOp.stop t => stopWorkers t s

/-- Run a sequence of start/stop steps. -/
def runLoop (s : WorkerState) (ops : List LoopOp) : WorkerState :=
  ops.foldl applyLoopOp s

/-- Wall-clock sanity of a step sequence: each stop happens no earlier than
    the reference instant and the stop instants are non-decreasing along
    the sequence. Holds of any real execution because each stop reads
    time.Now() after the previous one returned. -/
def chronOps : ℚ → List LoopOp → Bool
  | _, [] => true
  | t, LoopOp.start _ :: rest => chronOps t rest
  | t, LoopOp.stop u :: rest => decide (t ≤ u) && chronOps u rest

end Csminer

namespace Csminer

/-! Chat queues, from src/minerlib/chat/chat.go. -/

/-- Outbound chat record (client.ChatToSend): the opaque id and the message
    text, as constructed in GetChatsToSend. Ids are the queue index xored
    with the session salt randID; both are nonnegative 63-bit values in the
    source, so natural-number xor is exact. -/
structure ChatToSend where
  ID : ℕ
  Message : String
  deriving DecidableEq

/-- Inbound chat record (client.ChatResult). -/
structure ChatResult where
  Username : String
  Message : String
  Timestamp : ℤ
  deriving DecidableEq

/-- Result of a server chat fetch (client.GetChatsResult). -/
structure GetChatsResult where
  Chats : List ChatResult
  NextToken : ℤ
  deriving DecidableEq

/-- State of package chat: the package-level variables. randID is the random
    session salt with its sign bit cleared, hence a natural number below
    2^63. -/
structure ChatState where
  chatQueue : List String
  chatToSendIndex : ℕ
  receivedQueue : List ChatResult
  chatReceivedIndex : ℕ
  nextToken : ℤ
  randID : ℕ
  deriving DecidableEq

def HASHES_PER_CHAT : ℤ := 5000
def MAX_CHATS_PER_SHARE : ℕ := 5

/-- Embeds chat.SendChat: append the message and return its opaque id. -/
def SendChat (msg : String) (st : ChatState) : ℕ × ChatState :=
  let st' := { st with chatQueue := st.chatQueue ++ [msg] }
  (Nat.xor (st'.chatQueue.length - 1) st.randID, st')

/-- The collection loop inside chat.GetChatsToSend: while at least
    HASHES_PER_CHAT difficulty remains, the send index has not reached the
    end of the queue, and fewer than MAX_CHATS_PER_SHARE messages are
    collected, append the next queued message with its opaque id and
    advance. The source iterates an index over chatQueue; here the loop
    walks the suffix of the queue starting at that index (so running out of
    suffix is exactly the index reaching the queue length), carrying the
    index along for the ids and the final send index. -/
def getChatsLoop (rid : ℕ) : List String → ℤ → ℕ → List ChatToSend →
    List ChatToSend × ℕ
  | [], _, idx, r => (r, idx)
  | msg :: rest, diff, idx, r =>
    if HASHES_PER_CHAT ≤ diff ∧ r.length < MAX_CHATS_PER_SHARE then
      getChatsLoop rid rest (diff - HASHES_PER_CHAT) (idx + 1)
        (r ++ [{ ID := Nat.xor idx rid, Message := msg }])
    else (r, idx)

/-- Embeds chat.GetChatsToSend. Returns none where the Go function returns a
    nil slice (no chats pending), and the possibly empty collected list
    otherwise, together with the updated state. -/
def GetChatsToSend (diff : ℤ) (st : ChatState) :
    Option (List ChatToSend) × ChatState :=
  if st.chatToSendIndex = st.chatQueue.length then (none, st)
  else
    let p := getChatsLoop st.randID (st.chatQueue.drop st.chatToSendIndex)
      diff st.chatToSendIndex []
    (some p.1, { st with chatToSendIndex := p.2 })

/-- Embeds chat.ChatsReceived: discard when the fetch is stale (the token
    used for the fetch no longer equals the current next token), otherwise
    append the delivered chats in order and adopt the server-supplied next
    token. The early return for an empty result with an unchanged token is
    kept from the source. -/
def ChatsReceived (cr : GetChatsResult) (tokenSent : ℤ) (st : ChatState) :
    ChatState :=
  if cr.Chats.length = 0 ∧ cr.NextToken = tokenSent then st
  else if st.nextToken ≠ tokenSent then st
  else
    { st with
      receivedQueue := st.receivedQueue ++ cr.Chats
      nextToken := cr.NextToken }

end Csminer

namespace Csminer

/-! Concrete states used to instantiate the theorems below. -/

/-- A sample stats ledger state: ten seconds of accurate recent window
    (reset at 10, accurate at 20) holding 100 recent hashes, pool stats
    attached to user bob. -/
def stEx : StatsState :=
  { startTime := 0
    recentStatsResetTime := 10
    accurateTime := 20
    recentHashesAccurate := 100
    totalHashesAccurate := 200
    sharesAccepted := 1
    sharesRejected := 2
    poolSideHashes := 50
    clientSideHashes := 300
    recentHashes := 40
    lastPoolUsername := "bob"
    lastPoolUpdateTime := 50
    ppropProgress := 0
    hashrate1 := 0
    hashrate24 := 0
    lifetimeHashes := 7
    paid := 0
    owed := 0
    accumulated := 0
    timeToReward := "" }

/-- A sample miner configuration: alice logged in, no override, screen idle,
    mains power, no exclusion window. -/
def cfgEx : MinerConfig :=
  { plArgs := some { Username := "alice" }
    threads := 4
    excludeHourStart := 0
    excludeHourEnd := 0
    batteryPower := false
    screenIdle := true
    miningOverride := 0 }

/-- The sample configuration with the pause override set and used while the
    connection is down. -/
def cfgPause : MinerConfig :=
  { cfgEx with miningOverride := OVERRIDE_PAUSE }

/-- A sample worker state: three live workers over the sample ledger. -/
def stW : WorkerState :=
  { stopper := 0, running := 3, stats := stEx }

/-- A sample start/stop cycle sequence with non-decreasing stop times. -/
def opsW : List LoopOp :=
  [LoopOp.stop 30, LoopOp.start 2, LoopOp.stop 45]

/-- A sample ledger operation sequence: one tally, a reset, two more
    tallies. -/
def opsT : List StatsOp :=
  [StatsOp.tally 3, StatsOp.reset 25, StatsOp.tally 4, StatsOp.tally 5]

/-- A sample chat state: three queued outbound messages, none sent yet,
    next inbound token 7. -/
def stChat : ChatState :=
  { chatQueue := ["hello", "world", "again"]
    chatToSendIndex := 0
    receivedQueue := []
    chatReceivedIndex := 0
    nextToken := 7
    randID := 12 }

/-- A sample server chat fetch result carrying one chat and next token 9. -/
def crEx : GetChatsResult :=
  { Chats := [{ Username := "bob", Message := "hi", Timestamp := 100 }]
    NextToken := 9 }

end Csminer

namespace Csminer

/-! Theorems. One theorem per claim, with supporting lemmas. -/

/-- C5 counterexample: with start 22 and end 6 the time-exclusion test does
    not behave as a wrap-around window: hour 23 is reported not excluded,
    hour 5 not excluded, and hour 6 excluded, refuting the claimed triple at
    its own concrete inputs. -/
theorem timeExcluded_wraparound_counterexample :
    ¬(timeExcluded 22 6 23 = true ∧ timeExcluded 22 6 5 = true ∧
      timeExcluded 22 6 6 = false) := by
  decide

/-- C5 amended: when the start hour exceeds the end hour, the branch taken
    returns currHr < startHr and currHr at least endHr, so start 22 and
    end 6 excludes exactly the hours from 6 up to but excluding 22, the
    plain window with the bounds swapped rather than a wrap-around window:
    hour 23 is not excluded, hour 5 is not excluded, hour 6 is excluded. -/
theorem timeExcluded_swapped_window :
    (∀ h : ℤ, timeExcluded 22 6 h = true ↔ (6 ≤ h ∧ h < 22))
  ∧ timeExcluded 22 6 23 = false
  ∧ timeExcluded 22 6 5 = false
  ∧ timeExcluded 22 6 6 = true := by
  refine ⟨fun h => ?_, by decide, by decide, by decide⟩
  simp only [timeExcluded]
  norm_num
  omega

/-- C10: ResetRecent sets the recent-hash counter to zero and both the
    recent-reset and accurate timestamps to the current time, and leaves
    every other ledger field, counters and pool-side stats alike,
    unchanged. -/
theorem ResetRecent_frame (st : StatsState) (t : ℚ) :
    (ResetRecent t st).recentHashes = 0
  ∧ (ResetRecent t st).accurateTime = t
  ∧ (ResetRecent t st).recentStatsResetTime = t
  ∧ (ResetRecent t st).startTime = st.startTime
  ∧ (ResetRecent t st).recentHashesAccurate = st.recentHashesAccurate
  ∧ (ResetRecent t st).totalHashesAccurate = st.totalHashesAccurate
  ∧ (ResetRecent t st).sharesAccepted = st.sharesAccepted
  ∧ (ResetRecent t st).sharesRejected = st.sharesRejected
  ∧ (ResetRecent t st).poolSideHashes = st.poolSideHashes
  ∧ (ResetRecent t st).clientSideHashes = st.clientSideHashes
  ∧ (ResetRecent t st).lastPoolUsername = st.lastPoolUsername
  ∧ (ResetRecent t st).lastPoolUpdateTime = st.lastPoolUpdateTime
  ∧ (ResetRecent t st).ppropProgress = st.ppropProgress
  ∧ (ResetRecent t st).hashrate1 = st.hashrate1
  ∧ (ResetRecent t st).hashrate24 = st.hashrate24
  ∧ (ResetRecent t st).lifetimeHashes = st.lifetimeHashes
  ∧ (ResetRecent t st).paid = st.paid
  ∧ (ResetRecent t st).owed = st.owed
  ∧ (ResetRecent t st).accumulated = st.accumulated
  ∧ (ResetRecent t st).timeToReward = st.timeToReward := by
  exact ⟨rfl, rfl, rfl, rfl, rfl, rfl, rfl, rfl, rfl, rfl, rfl, rfl, rfl,
    rfl, rfl, rfl, rfl, rfl, rfl, rfl⟩

/-- C7: at the out-of-range argument ExcludeHourEnd equal to -1, the
    InitMiner of src/minerlib/minerlib.go returns the config-error code 3
    without touching the engine or the stats ledger, while the InitMiner
    variant of src/unnamed/part_002 accepts the same arguments, initializes
    the engine and the ledger, and returns code 1, because its range test
    checks hr1 against 0 twice and never checks hr2 against 0. -/
theorem InitMiner_hourRange_divergence :
    (InitMiner ⟨1, 0, -1⟩ 1).1.Code = 3
  ∧ (InitMiner ⟨1, 0, -1⟩ 1).2 = (false, false)
  ∧ (InitMiner_part002 ⟨1, 0, -1⟩ 1).1.Code = 1
  ∧ (InitMiner_part002 ⟨1, 0, -1⟩ 1).2 = (true, true) := by
  decide

/-- The InitMiner of src/minerlib/minerlib.go does satisfy the specified
    contract: out-of-range hours give code 3 and reach neither the engine
    init nor the stats init; in-range hours give 1 on success, 2 without
    hugepages, and a negative code when the engine init fails. -/
theorem InitMiner_contract (args : InitMinerArgs) (rxInitCode : ℤ) :
    ((args.ExcludeHourStart > 24 ∨ args.ExcludeHourStart < 0 ∨
      args.ExcludeHourEnd > 24 ∨ args.ExcludeHourEnd < 0) →
        (InitMiner args rxInitCode).1.Code = 3 ∧
        (InitMiner args rxInitCode).2 = (false, false))
  ∧ (0 ≤ args.ExcludeHourStart → args.ExcludeHourStart ≤ 24 →
     0 ≤ args.ExcludeHourEnd → args.ExcludeHourEnd ≤ 24 →
       (rxInitCode < 0 → (InitMiner args rxInitCode).1.Code = -3)
     ∧ (rxInitCode = 2 → (InitMiner args rxInitCode).1.Code = 2)
     ∧ (0 ≤ rxInitCode → rxInitCode ≠ 2 →
          (InitMiner args rxInitCode).1.Code = 1)) := by
  unfold InitMiner
  split_ifs with hrange hneg h2c <;>
    refine ⟨fun h => ?_, fun h1 h2 h3 h4 =>
      ⟨fun h5 => ?_, fun h6 => ?_, fun h7 h8 => ?_⟩⟩ <;>
    first
      | rfl
      | exact ⟨rfl, rfl⟩
      | (exfalso; omega)

/-- Supporting witness for the hypotheses of InitMiner_contract at a
    concrete in-range input. -/
theorem InitMiner_contract_witness :
    (InitMiner ⟨2, 22, 6⟩ 2).1.Code = 2 := by
  exact ((InitMiner_contract ⟨2, 22, 6⟩ 2).2 (by decide) (by decide)
    (by decide) (by decide)).2.1 rfl

/-- C1: the activity evaluator is a pure function of its inputs and follows
    the precedence order: no login, then user pause override, then no
    connection, then user mine override, then time exclusion, then battery
    power, then active screen, and otherwise active. In particular the
    pause override dominates a dead connection. -/
theorem getMiningActivityState_precedence (cfg : MinerConfig) (clAlive : Bool)
    (currHr : ℤ) :
    (cfg.plArgs = none →
       getMiningActivityState cfg clAlive currHr = MINING_PAUSED_NO_LOGIN)
  ∧ (cfg.plArgs ≠ none → cfg.miningOverride = OVERRIDE_PAUSE →
       getMiningActivityState cfg clAlive currHr = MINING_PAUSED_USER_OVERRIDE)
  ∧ (cfg.plArgs ≠ none → cfg.miningOverride ≠ OVERRIDE_PAUSE → clAlive = false →
       getMiningActivityState cfg clAlive currHr = MINING_PAUSED_NO_CONNECTION)
  ∧ (cfg.plArgs ≠ none → cfg.miningOverride = OVERRIDE_MINE → clAlive = true →
       getMiningActivityState cfg clAlive currHr = MINING_ACTIVE_USER_OVERRIDE)
  ∧ (cfg.plArgs ≠ none → cfg.miningOverride ≠ OVERRIDE_PAUSE →
     cfg.miningOverride ≠ OVERRIDE_MINE → clAlive = true →
     timeExcluded cfg.excludeHourStart cfg.excludeHourEnd currHr = true →
       getMiningActivityState cfg clAlive currHr = MINING_PAUSED_TIME_EXCLUDED)
  ∧ (cfg.plArgs ≠ none → cfg.miningOverride ≠ OVERRIDE_PAUSE →
     cfg.miningOverride ≠ OVERRIDE_MINE → clAlive = true →
     timeExcluded cfg.excludeHourStart cfg.excludeHourEnd currHr = false →
     cfg.batteryPower = true →
       getMiningActivityState cfg clAlive currHr = MINING_PAUSED_BATTERY_POWER)
  ∧ (cfg.plArgs ≠ none → cfg.miningOverride ≠ OVERRIDE_PAUSE →
     cfg.miningOverride ≠ OVERRIDE_MINE → clAlive = true →
     timeExcluded cfg.excludeHourStart cfg.excludeHourEnd currHr = false →
     cfg.batteryPower = false → cfg.screenIdle = false →
       getMiningActivityState cfg clAlive currHr = MINING_PAUSED_SCREEN_ACTIVITY)
  ∧ (cfg.plArgs ≠ none → cfg.miningOverride ≠ OVERRIDE_PAUSE →
     cfg.miningOverride ≠ OVERRIDE_MINE → clAlive = true →
     timeExcluded cfg.excludeHourStart cfg.excludeHourEnd currHr = false →
     cfg.batteryPower = false → cfg.screenIdle = true →
       getMiningActivityState cfg clAlive currHr = MINING_ACTIVE)
  ∧ (cfg.plArgs ≠ none → cfg.miningOverride = OVERRIDE_PAUSE → clAlive = false →
       getMiningActivityState cfg clAlive currHr = MINING_PAUSED_USER_OVERRIDE) := by
  obtain ⟨pl, th, hs, he, bp, si, ov⟩ := cfg
  cases pl with
  | none =>
    refine ⟨fun _ => rfl, ?_, ?_, ?_, ?_, ?_, ?_, ?_, ?_⟩ <;>
      exact fun h => absurd rfl h
  | some a =>
    refine ⟨fun h => absurd h (by simp), ?_, ?_, ?_, ?_, ?_, ?_, ?_, ?_⟩ <;>
      intros <;>
      simp_all [getMiningActivityState, OVERRIDE_PAUSE, OVERRIDE_MINE]

/-- Witness for C1 at a concrete input: the pause override wins even while
    the pool connection is down. -/
theorem getMiningActivityState_precedence_witness :
    getMiningActivityState cfgPause false 12 = MINING_PAUSED_USER_OVERRIDE := by
  exact (getMiningActivityState_precedence cfgPause false 12).2.2.2.2.2.2.2.2
    (by decide) (by decide) rfl

/-- C9: a chat fetch result delivered with a stale token (different from the
    current next token) changes nothing; a fetch with the matching token
    appends all delivered chats in order, adopts the server-supplied next
    token, and touches nothing else. -/
theorem ChatsReceived_spec (st : ChatState) (cr : GetChatsResult) (tok : ℤ) :
    (tok ≠ st.nextToken → ChatsReceived cr tok st = st)
  ∧ (tok = st.nextToken →
       (ChatsReceived cr tok st).receivedQueue = st.receivedQueue ++ cr.Chats
     ∧ (ChatsReceived cr tok st).nextToken = cr.NextToken
     ∧ (ChatsReceived cr tok st).chatQueue = st.chatQueue
     ∧ (ChatsReceived cr tok st).chatToSendIndex = st.chatToSendIndex
     ∧ (ChatsReceived cr tok st).chatReceivedIndex = st.chatReceivedIndex
     ∧ (ChatsReceived cr tok st).randID = st.randID) := by
  constructor
  · intro hne
    unfold ChatsReceived
    split_ifs with h1 h2
    · rfl
    · rfl
    · exact absurd (not_ne_iff.mp h2).symm hne
  · intro heq
    unfold ChatsReceived
    split_ifs with h1 h2
    · obtain ⟨hlen, htok⟩ := h1
      have hnil : cr.Chats = [] := List.length_eq_zero.mp hlen
      refine ⟨by simp [hnil], by omega, rfl, rfl, rfl, rfl⟩
    · exact absurd heq.symm h2
    · exact ⟨rfl, rfl, rfl, rfl, rfl, rfl⟩

/-- Witness for C9 at a concrete input: a fetch made with token 5 while the
    current next token is 7 is discarded whole. -/
theorem ChatsReceived_spec_witness :
    ChatsReceived crEx 5 stChat = stChat := by
  exact (ChatsReceived_spec stChat crEx 5).1 (by decide)

end Csminer

namespace Csminer

/-- The pool username field of a snapshot always equals the ledger's last
    pool username: the guard in GetSnapshot only skips copying when that
    name is empty, in which case the field keeps its empty zero value. -/
theorem GetSnapshot_poolUsername (m : Bool) (now : ℚ) (st : StatsState) :
    ((GetSnapshot m now st).1).PoolUsername = st.lastPoolUsername := by
  by_cases h : st.lastPoolUsername = ""
  · simp [GetSnapshot, h]
  · simp [GetSnapshot, h]

/-- C3 counterexample: a snapshot taken with isMining false carries a
    RecentHashrate of 0, the zero value of the field, not the sentinel -1
    the claim requires for every non-qualifying case. -/
theorem GetSnapshot_notMining_counterexample :
    (GetSnapshot false 30 stEx).1.RecentHashrate = 0 ∧
    (GetSnapshot false 30 stEx).1.RecentHashrate ≠ -1 := by
  decide

/-- C3 amended: RecentHashrate equals the accurate recent hash count
    divided by the recent window exactly when mining and the window between
    the reset time and the accurate time exceeds 5 seconds; when mining
    with a window of at most 5 seconds it is the sentinel -1; when not
    mining it is 0 (the field keeps its zero value). -/
theorem GetSnapshot_recentHashrate (st : StatsState) (isMining : Bool)
    (now : ℚ) :
    (isMining = true → st.accurateTime - st.recentStatsResetTime > 5 →
       (GetSnapshot isMining now st).1.RecentHashrate =
         (st.recentHashesAccurate : ℚ) /
           (st.accurateTime - st.recentStatsResetTime))
  ∧ (isMining = true → ¬(st.accurateTime - st.recentStatsResetTime > 5) →
       (GetSnapshot isMining now st).1.RecentHashrate = -1)
  ∧ (isMining = false →
       (GetSnapshot isMining now st).1.RecentHashrate = 0) := by
  cases isMining
  · exact ⟨fun h => by simp at h, fun h => by simp at h, fun _ => rfl⟩
  · refine ⟨fun _ hgt => ?_, fun _ hle => ?_, fun h => by simp at h⟩
    · simp [GetSnapshot, hgt]
    · simp [GetSnapshot, hle]

/-- Witness for C3 at a concrete input: the sample ledger has a ten-second
    accurate window, so mining snapshots report its recent hashrate as the
    accurate recent count over that window. -/
theorem GetSnapshot_recentHashrate_witness :
    (GetSnapshot true 30 stEx).1.RecentHashrate =
      (stEx.recentHashesAccurate : ℚ) /
        (stEx.accurateTime - stEx.recentStatsResetTime) := by
  exact (GetSnapshot_recentHashrate stEx true 30).1 rfl (by norm_num [stEx])

/-- C6 counterexample: with alice logged in while the pool stats belong to
    bob, GetMiningState returns the logged-in name alice in the pool
    username field, not the blank name the claim requires. -/
theorem GetMiningState_mismatch_counterexample :
    (GetMiningState cfgEx stEx true 12 100).1.snapshot.PoolUsername = "alice"
    ∧ ("alice" : String) ≠ "" := by
  decide

/-- C6 amended: GetMiningState mutates neither the configuration nor the
    ledger; when nobody is logged in the snapshot's pool username is blank
    and SecondsOld is -1; when the logged-in username differs from the
    username attached to the pool-side stats the snapshot's pool username
    is set to the logged-in username (not blank) and SecondsOld is -1. -/
theorem GetMiningState_spec (cfg : MinerConfig) (st : StatsState)
    (clAlive : Bool) (currHr : ℤ) (now : ℚ) :
    ((GetMiningState cfg st clAlive currHr now).2.1 = cfg)
  ∧ ((GetMiningState cfg st clAlive currHr now).2.2 = st)
  ∧ (cfg.plArgs = none →
       (GetMiningState cfg st clAlive currHr now).1.snapshot.PoolUsername = ""
     ∧ (GetMiningState cfg st clAlive currHr now).1.snapshot.SecondsOld = -1)
  ∧ (∀ a, cfg.plArgs = some a → a.Username ≠ st.lastPoolUsername →
       (GetMiningState cfg st clAlive currHr now).1.snapshot.PoolUsername =
         a.Username
     ∧ (GetMiningState cfg st clAlive currHr now).1.snapshot.SecondsOld = -1) := by
  refine ⟨rfl, rfl, ?_, ?_⟩
  · intro h
    simp [GetMiningState, h]
  · intro a ha hne
    rw [← GetSnapshot_poolUsername
      (decide (getMiningActivityState cfg clAlive currHr > 0)) now st] at hne
    simp only [GetMiningState, ha]
    rw [if_pos hne]
    exact ⟨rfl, rfl⟩

/-- Witness for C6 at a concrete input: alice logged in, pool stats
    attached to bob. -/
theorem GetMiningState_spec_witness :
    (GetMiningState cfgEx stEx true 12 100).1.snapshot.PoolUsername = "alice"
    ∧ (GetMiningState cfgEx stEx true 12 100).1.snapshot.SecondsOld = -1 := by
  exact (GetMiningState_spec cfgEx stEx true 12 100).2.2.2
    { Username := "alice" } rfl (by decide)

end Csminer

namespace Csminer

/-- Running a concatenation of ledger operation sequences runs both parts
    in order. -/
theorem runStats_append (st : StatsState) (p q : List StatsOp) :
    runStats st (p ++ q) = runStats (runStats st p) q := by
  simp [runStats]

/-- The lifetime counter after a run equals the initial value plus all
    amounts tallied, whatever resets happen in between. -/
theorem runStats_clientSide (ops : List StatsOp) :
    ∀ st : StatsState,
      (runStats st ops).clientSideHashes = st.clientSideHashes + talliesSum ops := by
  induction ops with
  | nil => intro st; simp [runStats, talliesSum]
  | cons op rest ih =>
    intro st
    have h := ih (applyStatsOp st op)
    simp only [runStats, List.foldl_cons] at h ⊢
    rw [h]
    cases op with
    | tally n =>
      simp [applyStatsOp, TallyHashes, talliesSum]
      ring
    | reset t =>
      simp [applyStatsOp, ResetRecent, talliesSum]

/-- In a reset-free run the recent counter just accumulates the tallies. -/
theorem runStats_noReset_recent (ops : List StatsOp) :
    ∀ st : StatsState, (∀ t, StatsOp.reset t ∉ ops) →
      (runStats st ops).recentHashes = st.recentHashes + talliesSum ops := by
  induction ops with
  | nil => intro st _; simp [runStats, talliesSum]
  | cons op rest ih =>
    intro st hno
    cases op with
    | tally n =>
      have h := ih (applyStatsOp st (StatsOp.tally n))
        (fun t ht => hno t (List.mem_cons_of_mem _ ht))
      simp only [runStats, List.foldl_cons] at h ⊢
      rw [h]
      simp [applyStatsOp, TallyHashes, talliesSum]
      ring
    | reset t => exact absurd (List.mem_cons_self _ _) (hno t)

/-- A sequence of nonnegative tallies sums to a nonnegative amount. -/
theorem talliesSum_nonneg (ops : List StatsOp) :
    (∀ n, StatsOp.tally n ∈ ops → 0 ≤ n) → 0 ≤ talliesSum ops := by
  induction ops with
  | nil => intro _; simp [talliesSum]
  | cons op rest ih =>
    intro h
    cases op with
    | tally n =>
      have h1 := h n (List.mem_cons_self _ _)
      have h2 := ih (fun m hm => h m (List.mem_cons_of_mem _ hm))
      simp only [talliesSum]
      omega
    | reset t =>
      simpa [talliesSum] using ih (fun m hm => h m (List.mem_cons_of_mem _ hm))

/-- The ledger invariant: with nonnegative tallies, the recent counter
    stays nonnegative and bounded by the lifetime counter. -/
theorem runStats_inv (ops : List StatsOp) :
    ∀ st : StatsState, (∀ n, StatsOp.tally n ∈ ops → 0 ≤ n) →
      0 ≤ st.recentHashes → st.recentHashes ≤ st.clientSideHashes →
      0 ≤ (runStats st ops).recentHashes ∧
      (runStats st ops).recentHashes ≤ (runStats st ops).clientSideHashes := by
  induction ops with
  | nil => intro st _ h0 h1; simpa [runStats] using ⟨h0, h1⟩
  | cons op rest ih =>
    intro st hn h0 h1
    have hrest : ∀ n, StatsOp.tally n ∈ rest → 0 ≤ n :=
      fun n hm => hn n (List.mem_cons_of_mem _ hm)
    cases op with
    | tally n =>
      have hpos := hn n (List.mem_cons_self _ _)
      have h := ih (applyStatsOp st (StatsOp.tally n)) hrest
        (by simp [applyStatsOp, TallyHashes]; omega)
        (by simp [applyStatsOp, TallyHashes]; omega)
      simpa [runStats, List.foldl_cons] using h
    | reset t =>
      have h := ih (applyStatsOp st (StatsOp.reset t)) hrest
        (by simp [applyStatsOp, ResetRecent])
        (by simp [applyStatsOp, ResetRecent]; omega)
      simpa [runStats, List.foldl_cons] using h

/-- C4: across every sequence of tallies of nonnegative amounts interleaved
    with resets, started from a state satisfying the ledger invariant: the
    recent counter after the run equals exactly the sum of the amounts
    tallied since the most recent reset (or the initial value plus all
    tallies when no reset occurs); the invariant that the lifetime counter
    bounds the nonnegative recent counter holds after every prefix; the
    lifetime counter never decreases along the run; and any step that
    decreases the recent counter is a reset, which sets it to zero. -/
theorem tallyReset_ledger (st : StatsState) (ops : List StatsOp)
    (hnn : ∀ n, StatsOp.tally n ∈ ops → 0 ≤ n)
    (h0 : 0 ≤ st.recentHashes) (h1 : st.recentHashes ≤ st.clientSideHashes) :
    (∀ p t q, ops = p ++ StatsOp.reset t :: q → (∀ u, StatsOp.reset u ∉ q) →
       (runStats st ops).recentHashes = talliesSum q)
  ∧ ((∀ t, StatsOp.reset t ∉ ops) →
       (runStats st ops).recentHashes = st.recentHashes + talliesSum ops)
  ∧ (∀ p q, ops = p ++ q →
       0 ≤ (runStats st p).recentHashes ∧
       (runStats st p).recentHashes ≤ (runStats st p).clientSideHashes)
  ∧ (∀ p q, ops = p ++ q →
       (runStats st p).clientSideHashes ≤ (runStats st ops).clientSideHashes)
  ∧ (∀ p op q, ops = p ++ op :: q →
       (applyStatsOp (runStats st p) op).recentHashes <
         (runStats st p).recentHashes →
       (∃ t, op = StatsOp.reset t) ∧
       (applyStatsOp (runStats st p) op).recentHashes = 0) := by
  refine ⟨?_, ?_, ?_, ?_, ?_⟩
  · intro p t q hops hq
    subst hops
    have h := runStats_noReset_recent q
      (applyStatsOp (runStats st p) (StatsOp.reset t)) hq
    have hz : (applyStatsOp (runStats st p) (StatsOp.reset t)).recentHashes = 0 := rfl
    rw [hz, zero_add] at h
    rw [runStats_append]
    have hstep : runStats (runStats st p) (StatsOp.reset t :: q) =
        runStats (applyStatsOp (runStats st p) (StatsOp.reset t)) q := rfl
    rw [hstep, h]
  · intro hno
    exact runStats_noReset_recent ops st hno
  · intro p q hops
    subst hops
    exact runStats_inv p st
      (fun n hm => hnn n (List.mem_append_left _ hm)) h0 h1
  · intro p q hops
    subst hops
    rw [runStats_append]
    rw [runStats_clientSide q (runStats st p)]
    have := talliesSum_nonneg q
      (fun n hm => hnn n (List.mem_append_right _ hm))
    omega
  · intro p op q hops hlt
    cases op with
    | tally n =>
      have hpos := hnn n
        (hops ▸ List.mem_append_right _ (List.mem_cons_self _ _))
      exfalso
      simp [applyStatsOp, TallyHashes] at hlt
      omega
    | reset t => exact ⟨⟨t, rfl⟩, rfl⟩

/-- Witness for C4 at a concrete input: after one tally, a reset and two
    more tallies, the recent counter holds the sum of the last two
    tallies. -/
theorem tallyReset_ledger_witness :
    (runStats stEx opsT).recentHashes =
      talliesSum [StatsOp.tally 4, StatsOp.tally 5] := by
  have h := tallyReset_ledger stEx opsT
    (by intro n hm; simp [opsT] at hm; omega)
    (by norm_num [stEx]) (by norm_num [stEx])
  exact h.1 [StatsOp.tally 3] 25 [StatsOp.tally 4, StatsOp.tally 5] rfl
    (by intro u hm; simp at hm)

/-- Running a concatenation of start/stop step sequences runs both parts in
    order. -/
theorem runLoop_append (s : WorkerState) (p q : List LoopOp) :
    runLoop s (p ++ q) = runLoop (runLoop s p) q := by
  simp [runLoop]

/-- Chronology is preserved by running a prefix: the suffix of a
    chronological sequence is chronological from the intermediate state
    reached after the prefix. -/
theorem chronOps_append (p : List LoopOp) :
    ∀ (q : List LoopOp) (s : WorkerState),
      chronOps s.stats.accurateTime (p ++ q) = true →
      chronOps (runLoop s p).stats.accurateTime q = true := by
  induction p with
  | nil => intro q s h; simpa [runLoop] using h
  | cons op rest ih =>
    intro q s h
    cases op with
    | start n =>
      have h' : chronOps (applyLoopOp s (LoopOp.start n)).stats.accurateTime
          (rest ++ q) = true := h
      have hrec := ih q (applyLoopOp s (LoopOp.start n)) h'
      simpa [runLoop] using hrec
    | stop u =>
      simp only [List.cons_append, chronOps, Bool.and_eq_true,
        decide_eq_true_eq] at h
      obtain ⟨hle, hrest⟩ := h
      have h' : chronOps (applyLoopOp s (LoopOp.stop u)).stats.accurateTime
          (rest ++ q) = true := hrest
      have hrec := ih q (applyLoopOp s (LoopOp.stop u)) h'
      simpa [runLoop] using hrec

/-- Over a chronological step sequence the accurate timestamp never moves
    backwards: starts leave it untouched and each stop advances it to a
    later instant. -/
theorem runLoop_mono (ops : List LoopOp) :
    ∀ s : WorkerState, chronOps s.stats.accurateTime ops = true →
      s.stats.accurateTime ≤ (runLoop s ops).stats.accurateTime := by
  induction ops with
  | nil => intro s _; simp [runLoop]
  | cons op rest ih =>
    intro s h
    cases op with
    | start n =>
      simp only [runLoop, List.foldl_cons]
      exact ih (applyLoopOp s (LoopOp.start n)) h
    | stop u =>
      simp only [chronOps, Bool.and_eq_true, decide_eq_true_eq] at h
      obtain ⟨hle, hrest⟩ := h
      simp only [runLoop, List.foldl_cons]
      have hstep := ih (applyLoopOp s (LoopOp.stop u)) hrest
      simp only [runLoop] at hstep
      exact le_trans hle hstep

/-- C2: stopWorkers is exactly the composition of setting the stop flag,
    joining all workers, and marking the recent stats accurate, in that
    order; after it the flag is set, no worker is running, and the ledger's
    accurate fields hold the snapshotted counters with the accurate
    timestamp at the stop instant. Consequently, over every chronological
    sequence of worker start/stop cycles the accurate timestamp is
    monotonically non-decreasing, and any step that changes it is a stop
    whose post-state has all workers joined. -/
theorem stopWorkers_contract (st : WorkerState) (t : ℚ) (ops : List LoopOp)
    (hch : chronOps st.stats.accurateTime ops = true) :
    stopWorkers t st = markAccurate t (joinWorkers (setStopFlag st))
  ∧ (stopWorkers t st).stopper = 1
  ∧ (stopWorkers t st).running = 0
  ∧ (stopWorkers t st).stats.accurateTime = t
  ∧ (stopWorkers t st).stats.recentHashesAccurate = st.stats.recentHashes
  ∧ (stopWorkers t st).stats.totalHashesAccurate = st.stats.clientSideHashes
  ∧ st.stats.accurateTime ≤ (runLoop st ops).stats.accurateTime
  ∧ (∀ p q, ops = p ++ q →
       (runLoop st p).stats.accurateTime ≤
         (runLoop st ops).stats.accurateTime)
  ∧ (∀ (s : WorkerState) (op : LoopOp),
       (applyLoopOp s op).stats.accurateTime ≠ s.stats.accurateTime →
       (∃ u, op = LoopOp.stop u) ∧ (applyLoopOp s op).running = 0) := by
  refine ⟨rfl, rfl, rfl, rfl, rfl, rfl, runLoop_mono ops st hch, ?_, ?_⟩
  · intro p q hops
    subst hops
    rw [runLoop_append]
    exact runLoop_mono q (runLoop st p) (chronOps_append p q st hch)
  · intro s op h
    cases op with
    | start n => exact absurd rfl h
    | stop u => exact ⟨⟨u, rfl⟩, rfl⟩

/-- Witness for C2 at a concrete input: a stop at 30, a start of two
    workers, and a stop at 45, from the sample worker state whose ledger
    was last accurate at 20. -/
theorem stopWorkers_contract_witness :
    stW.stats.accurateTime ≤ (runLoop stW opsW).stats.accurateTime ∧
    (stopWorkers 30 stW).running = 0 := by
  have h := stopWorkers_contract stW 30 opsW (by decide)
  exact ⟨h.2.2.2.2.2.2.1, h.2.2.1⟩

end Csminer

namespace Csminer

/-- Behaviour of the chat collection loop: starting anywhere, it appends
    some initial segment of the remaining queue suffix, advances the index
    by exactly that many entries, takes at most one message per
    HASHES_PER_CHAT of difficulty, and never grows the accumulator past
    MAX_CHATS_PER_SHARE. -/
theorem getChatsLoop_spec (rid : ℕ) :
    ∀ (rest : List String) (diff : ℤ) (idx : ℕ) (r : List ChatToSend),
      0 ≤ diff →
      ∃ new : List ChatToSend,
        getChatsLoop rid rest diff idx r = (r ++ new, idx + new.length)
      ∧ new.map (fun c => c.Message) = rest.take new.length
      ∧ (new.length : ℤ) ≤ diff / HASHES_PER_CHAT
      ∧ r.length + new.length ≤ max MAX_CHATS_PER_SHARE r.length := by
  intro rest
  induction rest with
  | nil =>
    intro diff idx r hd
    refine ⟨[], by simp [getChatsLoop], by simp, ?_, by simp⟩
    simpa using Int.ediv_nonneg hd (by norm_num [HASHES_PER_CHAT])
  | cons msg rest ih =>
    intro diff idx r hd
    by_cases hc : HASHES_PER_CHAT ≤ diff ∧ r.length < MAX_CHATS_PER_SHARE
    · have hd' : (0 : ℤ) ≤ diff - HASHES_PER_CHAT := by
        have := hc.1
        simp only [HASHES_PER_CHAT] at this ⊢
        omega
      obtain ⟨new', hrun, hmsg, hlen, hcap⟩ :=
        ih (diff - HASHES_PER_CHAT) (idx + 1)
          (r ++ [{ ID := Nat.xor idx rid, Message := msg }]) hd'
      refine ⟨{ ID := Nat.xor idx rid, Message := msg } :: new', ?_, ?_, ?_, ?_⟩
      · simp only [getChatsLoop, if_pos hc, hrun]
        refine Prod.ext ?_ ?_
        · simp
        · simp only [List.length_cons]
          omega
      · simp [hmsg]
      · simp only [List.length_cons, HASHES_PER_CHAT] at hlen ⊢
        push_cast at hlen ⊢
        omega
      · simp only [List.length_append, List.length_cons, List.length_nil,
          MAX_CHATS_PER_SHARE] at hcap hc ⊢
        omega
    · refine ⟨[], by simp [getChatsLoop, if_neg hc], by simp, ?_, by simp⟩
      simpa using Int.ediv_nonneg hd (by norm_num [HASHES_PER_CHAT])

/-- C8: for a nonnegative available difficulty, GetChatsToSend returns none
    exactly when no chats are pending; otherwise the returned messages are
    the next unsent queued messages in queue order, the sent index advances
    by exactly the number returned, and the number returned is at most the
    difficulty divided by HASHES_PER_CHAT and at most MAX_CHATS_PER_SHARE;
    no other field of the chat state changes. -/
theorem GetChatsToSend_spec (st : ChatState) (diff : ℤ) (hd : 0 ≤ diff) :
    (st.chatToSendIndex = st.chatQueue.length → GetChatsToSend diff st = (none, st))
  ∧ (∀ res st', GetChatsToSend diff st = (some res, st') →
       res.map (fun c => c.Message) =
         (st.chatQueue.drop st.chatToSendIndex).take res.length
     ∧ st'.chatToSendIndex = st.chatToSendIndex + res.length
     ∧ (res.length : ℤ) ≤ diff / HASHES_PER_CHAT
     ∧ res.length ≤ MAX_CHATS_PER_SHARE
     ∧ st'.chatQueue = st.chatQueue
     ∧ st'.receivedQueue = st.receivedQueue
     ∧ st'.chatReceivedIndex = st.chatReceivedIndex
     ∧ st'.nextToken = st.nextToken
     ∧ st'.randID = st.randID) := by
  constructor
  · intro h
    simp [GetChatsToSend, h]
  · intro res st' h
    unfold GetChatsToSend at h
    split_ifs at h with hidx
    · simp at h
    · obtain ⟨new, hrun, hmsg, hlen, hcap⟩ :=
        getChatsLoop_spec st.randID (st.chatQueue.drop st.chatToSendIndex)
          diff st.chatToSendIndex [] hd
      rw [Prod.mk.injEq] at h
      obtain ⟨h1, h2⟩ := h
      rw [hrun] at h1 h2
      simp only [List.nil_append] at h1
      obtain rfl : new = res := Option.some.inj h1
      subst h2
      refine ⟨hmsg, by simp, hlen, ?_, rfl, rfl, rfl, rfl, rfl⟩
      simpa [MAX_CHATS_PER_SHARE] using hcap

/-- Witness for C8 at a concrete input: difficulty 7000 pays for exactly one
    chat, so the first queued message is returned and the sent index moves
    from 0 to 1. -/
theorem GetChatsToSend_spec_witness :
    ([({ ID := 12, Message := "hello" } : ChatToSend)]).map (fun c => c.Message) =
      (stChat.chatQueue.drop stChat.chatToSendIndex).take 1 ∧
    ({ stChat with chatToSendIndex := 1 } : ChatState).chatToSendIndex =
      stChat.chatToSendIndex +
        ([({ ID := 12, Message := "hello" } : ChatToSend)]).length := by
  have h := (GetChatsToSend_spec stChat 7000 (by norm_num)).2
    [{ ID := 12, Message := "hello" }] { stChat with chatToSendIndex := 1 }
    (by decide)
  exact ⟨h.1, h.2.1⟩

end Csminer
